import Mathlib

/-!
Verification of the Kudu Python binding's scan-engine semantics.

The repository surfaces a thin Python binding (`kudu/__init__.py`), its scanner
test-suite (`kudu/tests/test_scanner.py`) and packaging scripts. The scan engine
itself (module `kudu.client`, a native extension) is not part of the surfaced
sources; following the specification document, the engine is modelled here from
the spec's component contracts (sections 3-4.7), while `connect` is embedded
directly from `kudu/__init__.py`.
-/

namespace Kudu

/-! ## Data model (spec section 3) -/

/-- Column types appearing in the scanner tests: integer and string columns. -/
inductive ColType
  | ctInt
  | ctString
  deriving DecidableEq, Repr

/-- A literal value supplied to a predicate. -/
inductive Lit
  | lInt (i : Int)
  | lStr (s : String)
  deriving DecidableEq, Repr

/-- A cell value stored in a row; nullable columns may hold `vNull`. -/
inductive Val
  | vInt (i : Int)
  | vStr (s : String)
  | vNull
  deriving DecidableEq, Repr

/-- A table row: an integer primary key (column 0) and the remaining cells. -/
structure Row where
  key : Int
  cells : List Val
  deriving DecidableEq, Repr

/-- Column access: column 0 is the primary key, the rest come from `cells`. -/
def getCol (r : Row) (c : Nat) : Val :=
  if c = 0 then Val.vInt r.key else r.cells.getD (c - 1) Val.vNull

/-- Comparison operators of the predicate model. -/
inductive CmpOp
  | lt
  | le
  | gt
  | ge
  | eq
  deriving DecidableEq, Repr

/-- Predicates: typed comparison, set membership, and nullness constraints. -/
inductive Pred
  | comp (op : CmpOp) (col : Nat) (lit : Lit)
  | inList (col : Nat) (lits : List Lit)
  | isNull (col : Nat)
  | isNotNull (col : Nat)
  deriving DecidableEq, Repr

/-- A comparison on a value: defined only between a value and a literal of the
same type; a null cell (or a type mismatch) fails every comparison. -/
def valMatchesCmp (op : CmpOp) (v : Val) (l : Lit) : Bool :=
  match v, l with
  | Val.vInt i, Lit.lInt j =>
    match op with
    | CmpOp.lt => i < j
    | CmpOp.le => i ≤ j
    | CmpOp.gt => j < i
    | CmpOp.ge => j ≤ i
    | CmpOp.eq => i = j
  | Val.vStr s, Lit.lStr t =>
    match op with
    | CmpOp.lt => s < t
    | CmpOp.le => s ≤ t
    | CmpOp.gt => t < s
    | CmpOp.ge => t ≤ s
    | CmpOp.eq => s = t
  | _, _ => false

/-- Evaluate one predicate on a row. -/
def evalPred (r : Row) : Pred → Bool
  | Pred.comp op c l => valMatchesCmp op (getCol r c) l
  | Pred.inList c ls => ls.any fun l => valMatchesCmp CmpOp.eq (getCol r c) l
  | Pred.isNull c => getCol r c = Val.vNull
  | Pred.isNotNull c => getCol r c ≠ Val.vNull

/-- The type of a literal. -/
def litType : Lit → ColType
  | Lit.lInt _ => ColType.ctInt
  | Lit.lStr _ => ColType.ctString

/-- Type compatibility of a literal against a declared column type. -/
def litCompat (ct : ColType) (l : Lit) : Bool := litType l = ct

/-- Spec 4.1: a predicate is well typed against a schema when its column exists
and every literal it carries matches the column's declared type. -/
def predWellTyped (schema : List ColType) : Pred → Bool
  | Pred.comp _ c l =>
    match schema.get? c with
    | some ct => litCompat ct l
    | none => false
  | Pred.inList c ls =>
    match schema.get? c with
    | some ct => ls.all (litCompat ct)
    | none => false
  | Pred.isNull c => c < schema.length
  | Pred.isNotNull c => c < schema.length

/-- Primary-key range bound: optional inclusive lower / exclusive upper key,
matching `add_lower_bound` and `add_exclusive_upper_bound`. -/
structure Bound where
  lower : Option Int
  upper : Option Int
  deriving DecidableEq, Repr

/-- Whether a primary key lies within a bound. -/
def inBound (b : Bound) (k : Int) : Bool :=
  (match b.lower with
   | none => true
   | some lo => lo ≤ k) &&
  (match b.upper with
   | none => true
   | some hi => k < hi)

/-- Replica selection policy (spec 4.5). -/
inductive ReplicaSelection
  | leaderOnly
  | closestReplica
  | firstReplica
  deriving DecidableEq, Repr

/-- The immutable scan specification aggregate (spec section 3). -/
structure ScanSpec where
  preds : List Pred
  bound : Bound
  limit : Option Nat
  faultTolerant : Bool
  selection : ReplicaSelection
  cacheBlocks : Bool
  deriving DecidableEq, Repr

/-- Whether a row satisfies every predicate of a spec and lies in its bound. -/
def matchesSpec (sp : ScanSpec) (r : Row) : Bool :=
  sp.preds.all (evalPred r) && inBound sp.bound r.key

/-! ## Fault-tolerant scan executor (modelled from spec 4.5) -/

/-- A table as seen by one scan: its partitions, each a list of rows; the
ascending key-range visiting order of spec 4.5 is the list order. -/
structure Table where
  parts : List (List Row)
  deriving DecidableEq, Repr

/-- All rows of a table in partition-visiting order. -/
def Table.allRows (t : Table) : List Row := t.parts.flatten

/-- The global ordering invariant of spec 4.5: the row stream is strictly
ascending by primary key (within partitions and across partition order). -/
def StrictByKey (rs : List Row) : Prop := rs.Pairwise fun a b => a.key < b.key

/-- A table whose concatenated partitions are strictly key-ordered. -/
def Table.ordered (t : Table) : Prop := StrictByKey t.allRows

/-- Per-scan resource metrics: named monotone counters (spec 4.6). -/
abbrev Metrics := List (String × Nat)

/-- The counters every scan reports, per the scanner test-suite. -/
def metricNames : List String := ["cfile_cache_hit_bytes", "cfile_cache_miss_bytes"]

/-- Modelled from the spec: the accumulator starts every named counter at 0. -/
def initMetrics : Metrics := metricNames.map fun k => (k, 0)

/-- Fold one batch's metrics delta into the accumulated counters. -/
def addDelta (m : Metrics) (d : String → Nat) : Metrics :=
  m.map fun e => (e.1, e.2 + d e.1)

/-- Look up one accumulated counter by name. -/
def getMetric (m : Metrics) (k : String) : Option Nat :=
  (m.find? fun e => e.1 == k).map fun e => e.2

/-- Modelled from the spec: the executor state of spec 4.5 (the `kudu.client`
scanner implementation is not among the surfaced sources). `pending` is the
ordered stream of matching rows not yet delivered, `delivered` the rows handed
to the caller, `lastKey` the last successfully delivered primary key, and
`remaining` the rows still allowed under the configured limit. -/
structure Executor where
  tableRows : List Row
  spec : ScanSpec
  pending : List Row
  delivered : List Row
  lastKey : Option Int
  remaining : Option Nat
  metrics : Metrics

/-- Modelled from the spec: `open()` resolves the partitions intersecting the
key range and prepares the ordered stream of rows matching the spec. -/
def openScan (t : Table) (sp : ScanSpec) : Executor :=
  { tableRows := t.allRows
    spec := sp
    pending := t.allRows.filter (matchesSpec sp)
    delivered := []
    lastKey := none
    remaining := sp.limit
    metrics := initMetrics }

/-- Modelled from the spec: `hasMoreRows()` is true while undelivered rows
remain and the row-limit cap has not been reached. -/
def hasMoreRows (e : Executor) : Bool :=
  !e.pending.isEmpty &&
  (match e.remaining with
   | some 0 => false
   | _ => true)

/-- How many rows the next batch may hold: the requested size, clipped to the
rows still allowed under the limit (spec 4.5, `setLimit`). -/
def room (e : Executor) (n : Nat) : Nat :=
  match e.remaining with
  | none => n
  | some c => min n c

/-- The rows the next batch delivers. -/
def batchOf (e : Executor) (n : Nat) : List Row := e.pending.take (room e n)

/-- Modelled from the spec: `nextBatch()` delivers the next batch (at most `n`
rows, clipped to the limit), advances the cursor, records the last delivered
primary key, and folds in the batch's metrics delta. -/
def nextBatch (e : Executor) (n : Nat) (d : String → Nat) : List Row × Executor :=
  (batchOf e n,
   { e with
     pending := e.pending.drop (room e n)
     delivered := e.delivered ++ batchOf e n
     lastKey := match (batchOf e n).getLast? with
       | some r => some r.key
       | none => e.lastKey
     remaining := e.remaining.map fun c => c - (batchOf e n).length
     metrics := addDelta e.metrics d })

/-- Drain the scan batch-by-batch along a schedule of batch sizes and
backend metric deltas, as the `has_more_rows`/`next_batch` loop does. -/
def drain : Executor → List (Nat × (String → Nat)) → List Row × Executor
  | e, [] => ([], e)
  | e, s :: rest =>
    if hasMoreRows e then
      let p := nextBatch e s.1 s.2
      let q := drain p.2 rest
      (p.1 ++ q.1, q.2)
    else ([], e)

/-- Modelled from the spec: `read_all_tuples` drains the scan to completion,
returning every pending row up to the remaining limit. -/
def readAll (e : Executor) : List Row :=
  match e.remaining with
  | none => e.pending
  | some c => e.pending.take c

/-- The rows a scan of `sp` over `t` delivers. -/
def scanResult (t : Table) (sp : ScanSpec) : List Row := readAll (openScan t sp)

/-- Modelled from the spec: on a partition failure the fault-tolerant executor
re-opens a sub-scan bounded below by the last delivered key, exclusive. -/
def afterKey (ok : Option Int) (r : Row) : Bool :=
  match ok with
  | none => true
  | some k => k < r.key

/-- Modelled from the spec: RECOVERING re-resolves the partition and rebuilds
the pending stream from rows matching the spec strictly after `lastKey`. -/
def recover (e : Executor) : Executor :=
  { e with
    pending := e.tableRows.filter fun r => matchesSpec e.spec r && afterKey e.lastKey r }

/-- Modelled from the spec: a partition failure transitions to RECOVERING when
the fault-tolerance flag is set, else it is fatal (`ScanFailed`). -/
def onFailure (e : Executor) : Except String Executor :=
  if e.spec.faultTolerant then Except.ok (recover e) else Except.error "ScanFailed"

/-! ## Predicate configuration (spec 4.1) -/

/-- Modelled from the spec: `addPredicate(spec, predicate)` validates the
literal type(s) against the column's declared type at configuration time and
fails with a type error when incompatible; otherwise it appends the predicate
(an immutable value) to the spec. -/
def addPredicate (schema : List ColType) (sp : ScanSpec) (p : Pred) : Except String ScanSpec :=
  if predWellTyped schema p then Except.ok { sp with preds := sp.preds ++ [p] }
  else Except.error "TypeError"

/-- `add_predicates`: fold `addPredicate` over a predicate list, failing on the
first ill-typed predicate. -/
def addPredicates (schema : List ColType) (sp : ScanSpec) : List Pred → Except String ScanSpec
  | [] => Except.ok sp
  | p :: ps =>
    match addPredicate schema sp p with
    | Except.ok sp2 => addPredicates schema sp2 ps
    | Except.error msg => Except.error msg

/-! ## Replica selection (spec 4.5, `set_selection`) -/

/-- A partition of a replicated table: the key-range shard's replicas, plus
which replica index is the leader and which is closest to the client. -/
structure Partition where
  leader : Nat
  closest : Nat
  replicas : List (List Row)
  deriving DecidableEq, Repr

/-- A replicated partition is consistent when it has at least one replica,
every replica serves the same rows, and the leader/closest indexes are valid. -/
def Partition.consistent (p : Partition) : Prop :=
  p.replicas ≠ [] ∧
  (∀ rs ∈ p.replicas, rs = p.replicas.headD []) ∧
  p.leader < p.replicas.length ∧
  p.closest < p.replicas.length

/-- Modelled from the spec: the selection policy only chooses which replica of
a partition is contacted. -/
def chooseReplica (sel : ReplicaSelection) (p : Partition) : List Row :=
  match sel with
  | ReplicaSelection.leaderOnly => p.replicas.getD p.leader []
  | ReplicaSelection.closestReplica => p.replicas.getD p.closest []
  | ReplicaSelection.firstReplica => p.replicas.getD 0 []

/-- The table a scan sees when each partition is read via the policy-chosen
replica. -/
def tableVia (parts : List Partition) (sel : ReplicaSelection) : Table :=
  ⟨parts.map (chooseReplica sel)⟩

/-! ## Scan tokens: serialization codec (spec 4.4) -/

/-- Encode an integer: a sign tag followed by the magnitude. -/
def encInt (i : Int) : List Nat := [if i < 0 then 1 else 0, i.natAbs]

/-- Decode an integer, returning the leftover bytes. -/
def decInt : List Nat → Option (Int × List Nat)
  | s :: m :: rest => some (if s = 0 then (m : Int) else -(m : Int), rest)
  | _ => none

/-- Encode a boolean flag. -/
def encBool (b : Bool) : List Nat := [if b then 1 else 0]

/-- Decode a boolean flag. -/
def decBool : List Nat → Option (Bool × List Nat)
  | n :: rest => some (if n = 0 then false else true, rest)
  | [] => none

/-- Encode an optional integer (a presence tag, then the value). -/
def encOptInt : Option Int → List Nat
  | none => [0]
  | some i => 1 :: encInt i

/-- Decode an optional integer. -/
def decOptInt : List Nat → Option (Option Int × List Nat)
  | 0 :: rest => some (none, rest)
  | _ :: rest => (decInt rest).map fun p => (some p.1, p.2)
  | [] => none

/-- Encode an optional row-limit. -/
def encOptNat : Option Nat → List Nat
  | none => [0]
  | some n => [1, n]

/-- Decode an optional row-limit. -/
def decOptNat : List Nat → Option (Option Nat × List Nat)
  | 0 :: rest => some (none, rest)
  | _ :: n :: rest => some (some n, rest)
  | _ => none

/-- Encode a character list as code points. -/
def encChars (cs : List Char) : List Nat := cs.map Char.toNat

/-- Decode `k` characters, returning the leftover bytes. -/
def decChars : Nat → List Nat → Option (List Char × List Nat)
  | 0, rest => some ([], rest)
  | k + 1, c :: rest => (decChars k rest).map fun p => (Char.ofNat c :: p.1, p.2)
  | _ + 1, [] => none

/-- Encode a string: its length, then its characters. -/
def encStr (s : String) : List Nat := s.data.length :: encChars s.data

/-- Decode a string. -/
def decStr : List Nat → Option (String × List Nat)
  | k :: rest => (decChars k rest).map fun p => (String.mk p.1, p.2)
  | [] => none

/-- Encode a literal: a type tag, then the value. -/
def encLit : Lit → List Nat
  | Lit.lInt i => 0 :: encInt i
  | Lit.lStr s => 1 :: encStr s

/-- Decode a literal. -/
def decLit : List Nat → Option (Lit × List Nat)
  | 0 :: rest => (decInt rest).map fun p => (Lit.lInt p.1, p.2)
  | _ :: rest => (decStr rest).map fun p => (Lit.lStr p.1, p.2)
  | [] => none

/-- Encode a comparison operator as a tag. -/
def encOp : CmpOp → List Nat
  | CmpOp.lt => [0]
  | CmpOp.le => [1]
  | CmpOp.gt => [2]
  | CmpOp.ge => [3]
  | CmpOp.eq => [4]

/-- Decode a comparison operator. -/
def decOp : List Nat → Option (CmpOp × List Nat)
  | 0 :: rest => some (CmpOp.lt, rest)
  | 1 :: rest => some (CmpOp.le, rest)
  | 2 :: rest => some (CmpOp.gt, rest)
  | 3 :: rest => some (CmpOp.ge, rest)
  | _ :: rest => some (CmpOp.eq, rest)
  | [] => none

/-- Decode `k` literals in sequence. -/
def decLitsAux : Nat → List Nat → Option (List Lit × List Nat)
  | 0, rest => some ([], rest)
  | k + 1, rest =>
    match decLit rest with
    | some p =>
      match decLitsAux k p.2 with
      | some q => some (p.1 :: q.1, q.2)
      | none => none
    | none => none

/-- Encode a literal list: its length, then each literal. -/
def encLits (ls : List Lit) : List Nat := ls.length :: (ls.map encLit).flatten

/-- Decode a literal list. -/
def decLits : List Nat → Option (List Lit × List Nat)
  | k :: rest => decLitsAux k rest
  | [] => none

/-- Encode a predicate: a variant tag, then its fields. -/
def encPred : Pred → List Nat
  | Pred.comp op c l => 0 :: encOp op ++ c :: encLit l
  | Pred.inList c ls => 1 :: c :: encLits ls
  | Pred.isNull c => [2, c]
  | Pred.isNotNull c => [3, c]

/-- Decode a predicate. -/
def decPred : List Nat → Option (Pred × List Nat)
  | 0 :: rest =>
    match decOp rest with
    | some p =>
      match p.2 with
      | c :: rest2 => (decLit rest2).map fun q => (Pred.comp p.1 c q.1, q.2)
      | [] => none
    | none => none
  | 1 :: c :: rest => (decLits rest).map fun q => (Pred.inList c q.1, q.2)
  | 2 :: c :: rest => some (Pred.isNull c, rest)
  | _ :: c :: rest => some (Pred.isNotNull c, rest)
  | _ => none

/-- Decode `k` predicates in sequence. -/
def decPredsAux : Nat → List Nat → Option (List Pred × List Nat)
  | 0, rest => some ([], rest)
  | k + 1, rest =>
    match decPred rest with
    | some p =>
      match decPredsAux k p.2 with
      | some q => some (p.1 :: q.1, q.2)
      | none => none
    | none => none

/-- Encode a predicate list: its length, then each predicate. -/
def encPreds (ps : List Pred) : List Nat := ps.length :: (ps.map encPred).flatten

/-- Decode a predicate list. -/
def decPreds : List Nat → Option (List Pred × List Nat)
  | k :: rest => decPredsAux k rest
  | [] => none

/-- Encode a replica-selection policy. -/
def encSel : ReplicaSelection → List Nat
  | ReplicaSelection.leaderOnly => [0]
  | ReplicaSelection.closestReplica => [1]
  | ReplicaSelection.firstReplica => [2]

/-- Decode a replica-selection policy. -/
def decSel : List Nat → Option (ReplicaSelection × List Nat)
  | 0 :: rest => some (ReplicaSelection.leaderOnly, rest)
  | 1 :: rest => some (ReplicaSelection.closestReplica, rest)
  | _ :: rest => some (ReplicaSelection.firstReplica, rest)
  | [] => none

/-- Modelled from the spec: a scan token captures one partition-scoped scan
specification, sufficient to replay the scan on any worker (spec 4.4; the
native `ScanTokenBuilder`/`ScanToken` are not among the surfaced sources). -/
structure ScanToken where
  spec : ScanSpec
  deriving DecidableEq, Repr

/-- `buildTokens` for the single-token case: capture the configured spec. -/
def buildToken (sp : ScanSpec) : ScanToken := ⟨sp⟩

/-- `Token.serialize() -> bytes`. -/
def serialize (tok : ScanToken) : List Nat :=
  encPreds tok.spec.preds ++ encOptInt tok.spec.bound.lower ++ encOptInt tok.spec.bound.upper
    ++ encOptNat tok.spec.limit ++ encBool tok.spec.faultTolerant
    ++ encSel tok.spec.selection ++ encBool tok.spec.cacheBlocks

/-- `Token.deserialize(bytes) -> Token`: decode every field and require the
byte stream to be fully consumed. -/
def deserialize (bytes : List Nat) : Option ScanToken :=
  (decPreds bytes).bind fun p1 =>
  (decOptInt p1.2).bind fun p2 =>
  (decOptInt p2.2).bind fun p3 =>
  (decOptNat p3.2).bind fun p4 =>
  (decBool p4.2).bind fun p5 =>
  (decSel p5.2).bind fun p6 =>
  (decBool p6.2).bind fun p7 =>
  if p7.2.isEmpty then
    some ⟨{ preds := p1.1
            bound := ⟨p2.1, p3.1⟩
            limit := p4.1
            faultTolerant := p5.1
            selection := p6.1
            cacheBlocks := p7.1 }⟩
  else none

/-! ## The `connect` address builder, embedded from `kudu/__init__.py` -/

/-- The `host` argument of `connect`: a single address or a list of them. -/
inductive HostArg
  | one (h : String)
  | many (hs : List String)
  deriving DecidableEq, Repr

/-- The `port` argument of `connect`: a single port or a list of them. -/
inductive PortArg
  | one (p : Nat)
  | many (ps : List Nat)
  deriving DecidableEq, Repr

/-- Format one master address, as `'\x7b0\x7d:\x7b1\x7d'.format(h, p)` does. -/
def formatAddr (h : String) (p : Nat) : String := h ++ ":" ++ toString p

/-- The client holds the list of master addresses it was constructed from. -/
structure Client where
  addresses : List String
  deriving DecidableEq, Repr

/-- `connect(host, port)` from `kudu/__init__.py`: builds the address list, or
raises `ValueError` when the host/port argument shapes are inconsistent. -/
def connect (host : HostArg) (port : PortArg) : Except String Client :=
  match host with
  | HostArg.many hs =>
    match port with
    | PortArg.many ps =>
      if hs.length = ps.length then
        Except.ok ⟨(hs.zip ps).map fun hp => formatAddr hp.1 hp.2⟩
      else
        Except.error "Host and port lists are not of equal length."
    | PortArg.one p => Except.ok ⟨hs.map fun h => formatAddr h p⟩
  | HostArg.one h =>
    match port with
    | PortArg.many _ => Except.error "List of ports provided but only a single host."
    | PortArg.one p => Except.ok ⟨[formatAddr h p]⟩

/-- The cursor invariant of the executor: the matching-row stream splits into
the delivered prefix and the pending suffix, and `lastKey` is the key of the
last delivered row. -/
def Inv (e : Executor) : Prop :=
  e.tableRows.filter (matchesSpec e.spec) = e.delivered ++ e.pending ∧
  e.lastKey = e.delivered.getLast?.map Row.key

/-! ## Concrete demonstration data (mirroring the test-suite's table shape) -/

/-- A small table in the shape of the test table: integer key (column 0) and a
nullable string column, split over two key-ordered partitions. -/
def demoTable : Table :=
  ⟨[[{ key := 1, cells := [Val.vNull] }, { key := 2, cells := [Val.vStr "hello_2"] }],
    [{ key := 3, cells := [Val.vNull] }, { key := 4, cells := [Val.vStr "hello_4"] }]]⟩

/-- A demonstration scan spec: conjunctive predicates `key > 1` and
`string_val is not null`, bound `key < 4`, fault tolerant, no limit. -/
def demoSpec : ScanSpec :=
  { preds := [Pred.comp CmpOp.gt 0 (Lit.lInt 1), Pred.isNotNull 1]
    bound := { lower := none, upper := some 4 }
    limit := none
    faultTolerant := true
    selection := ReplicaSelection.leaderOnly
    cacheBlocks := true }

/-- A demonstration spec with no predicates, no bound, and a row limit of 2. -/
def demoLimitSpec : ScanSpec :=
  { preds := []
    bound := { lower := none, upper := none }
    limit := some 2
    faultTolerant := false
    selection := ReplicaSelection.closestReplica
    cacheBlocks := false }

/-- A drain schedule of four single-row batches with zero metric deltas. -/
def demoSteps : List (Nat × (String → Nat)) :=
  [(1, fun _ => 0), (1, fun _ => 0), (1, fun _ => 0), (1, fun _ => 0)]

/-- A single consistent partition replicated three ways. -/
def demoPartition : Partition :=
  { leader := 0
    closest := 2
    replicas := [[{ key := 7, cells := [] }], [{ key := 7, cells := [] }],
                 [{ key := 7, cells := [] }]] }

/-- The schema of the demonstration table: key, int_val, string_val. -/
def demoSchema : List ColType := [ColType.ctInt, ColType.ctInt, ColType.ctString]

/-! ## Executor lemmas -/

theorem hasMoreRows_iff (e : Executor) :
    hasMoreRows e = true ↔ e.pending ≠ [] ∧ e.remaining ≠ some 0 := by
  unfold hasMoreRows
  cases hr : e.remaining with
  | none => simp [List.isEmpty_iff]
  | some c => cases c <;> simp [List.isEmpty_iff]

theorem readAll_exhausted (e : Executor) (h : hasMoreRows e = false) : readAll e = [] := by
  have h2 : ¬ (e.pending ≠ [] ∧ e.remaining ≠ some 0) := by
    intro hc
    rw [(hasMoreRows_iff e).mpr hc] at h
    exact Bool.noConfusion h
  unfold readAll
  rcases not_and_or.mp h2 with hp | hr
  · rw [not_not.mp hp]
    cases e.remaining <;> simp
  · rw [not_not.mp hr]
    simp

theorem room_none (e : Executor) (n : Nat) (h : e.remaining = none) : room e n = n := by
  unfold room
  rw [h]

theorem room_some (e : Executor) (n c : Nat) (h : e.remaining = some c) :
    room e n = min n c := by
  unfold room
  rw [h]

theorem nextBatch_readAll (e : Executor) (n : Nat) (d : String → Nat) :
    (nextBatch e n d).1 ++ readAll (nextBatch e n d).2 = readAll e := by
  have hfst : (nextBatch e n d).1 = e.pending.take (room e n) := rfl
  have hpend : (nextBatch e n d).2.pending = e.pending.drop (room e n) := rfl
  have hrem : (nextBatch e n d).2.remaining
      = e.remaining.map (fun c => c - (batchOf e n).length) := rfl
  cases hr : e.remaining with
  | none =>
    unfold readAll
    rw [hfst, hpend, hrem, hr, room_none e n hr]
    simp [List.take_append_drop]
  | some c =>
    unfold readAll
    rw [hfst, hpend, hrem, hr]
    simp only [Option.map_some']
    have hbl : (batchOf e n).length = min (min n c) e.pending.length := by
      unfold batchOf
      rw [room_some e n c hr, List.length_take]
    rw [hbl, room_some e n c hr]
    by_cases hp : min n c ≤ e.pending.length
    · rw [show min (min n c) e.pending.length = min n c by omega, ← List.take_add]
      congr 1
      omega
    · push_neg at hp
      have h1 : e.pending.take (min n c) = e.pending := List.take_of_length_le (by omega)
      have h2 : e.pending.drop (min n c) = [] := List.drop_eq_nil_of_le (by omega)
      have h3 : e.pending.take c = e.pending := List.take_of_length_le (by omega)
      rw [h1, h2, h3]
      simp

theorem drain_readAll (steps : List (Nat × (String → Nat))) :
    ∀ e : Executor, (drain e steps).1 ++ readAll (drain e steps).2 = readAll e := by
  induction steps with
  | nil => intro e; simp [drain]
  | cons s rest ih =>
    intro e
    by_cases h : hasMoreRows e
    · simp only [drain, h, if_true]
      rw [List.append_assoc, ih]
      exact nextBatch_readAll e s.1 s.2
    · simp [drain, h]

theorem drain_spec_eq (steps : List (Nat × (String → Nat))) :
    ∀ e : Executor, (drain e steps).2.spec = e.spec := by
  induction steps with
  | nil => intro e; rfl
  | cons s rest ih =>
    intro e
    by_cases h : hasMoreRows e
    · simp only [drain, h, if_true]
      exact ih (nextBatch e s.1 s.2).2
    · simp [drain, h]

theorem drain_tableRows_eq (steps : List (Nat × (String → Nat))) :
    ∀ e : Executor, (drain e steps).2.tableRows = e.tableRows := by
  induction steps with
  | nil => intro e; rfl
  | cons s rest ih =>
    intro e
    by_cases h : hasMoreRows e
    · simp only [drain, h, if_true]
      exact ih (nextBatch e s.1 s.2).2
    · simp [drain, h]

theorem drain_exhausts (steps : List (Nat × (String → Nat))) :
    ∀ e : Executor, (∀ s ∈ steps, 1 ≤ s.1) → e.pending.length ≤ steps.length →
    hasMoreRows (drain e steps).2 = false := by
  induction steps with
  | nil =>
    intro e _ hlen
    have hp : e.pending = [] := List.length_eq_zero.mp (Nat.le_zero.mp hlen)
    simp [drain, hasMoreRows, hp]
  | cons s rest ih =>
    intro e hpos hlen
    by_cases h : hasMoreRows e
    · simp only [drain, h, if_true]
      apply ih
      · intro s2 hs2
        exact hpos s2 (List.mem_cons_of_mem _ hs2)
      · obtain ⟨hp, hr⟩ := (hasMoreRows_iff e).mp h
        have hn : 1 ≤ s.1 := hpos s (List.mem_cons_self _ _)
        have hroom : 1 ≤ room e s.1 := by
          cases hrem : e.remaining with
          | none =>
            rw [room_none e s.1 hrem]
            exact hn
          | some c =>
            rw [room_some e s.1 c hrem]
            rw [hrem] at hr
            have hc : c ≠ 0 := fun hcc => hr (by rw [hcc])
            omega
        have hlen2 : e.pending.length ≤ rest.length + 1 := by
          simpa using hlen
        have hplen : 1 ≤ e.pending.length := by
          cases hpl : e.pending with
          | nil => exact absurd hpl hp
          | cons a tl => simp
        show (e.pending.drop (room e s.1)).length ≤ rest.length
        calc (e.pending.drop (room e s.1)).length
            = e.pending.length - room e s.1 := List.length_drop _ _
          _ ≤ e.pending.length - 1 := Nat.sub_le_sub_left hroom _
          _ ≤ rest.length := by omega
    · simp [drain, h]

theorem drain_full (steps : List (Nat × (String → Nat))) (e : Executor)
    (hpos : ∀ s ∈ steps, 1 ≤ s.1) (hlen : e.pending.length ≤ steps.length) :
    (drain e steps).1 = readAll e := by
  have h1 := drain_readAll steps e
  rw [readAll_exhausted _ (drain_exhausts steps e hpos hlen), List.append_nil] at h1
  exact h1

/-! ## Cursor invariant and recovery lemmas -/

theorem openScan_inv (t : Table) (sp : ScanSpec) : Inv (openScan t sp) :=
  ⟨rfl, rfl⟩

theorem nextBatch_inv (e : Executor) (n : Nat) (d : String → Nat) (h : Inv e) :
    Inv (nextBatch e n d).2 := by
  obtain ⟨h1, h2⟩ := h
  constructor
  · show e.tableRows.filter (matchesSpec e.spec)
      = (e.delivered ++ batchOf e n) ++ e.pending.drop (room e n)
    rw [h1, List.append_assoc]
    congr 1
    exact (List.take_append_drop (room e n) e.pending).symm
  · show (match (batchOf e n).getLast? with
          | some r => some r.key
          | none => e.lastKey)
      = ((e.delivered ++ batchOf e n).getLast?).map Row.key
    rw [List.getLast?_append]
    cases hb : (batchOf e n).getLast? with
    | some r => rfl
    | none =>
      show e.lastKey = (none.or e.delivered.getLast?).map Row.key
      rw [Option.none_or]
      exact h2

theorem drain_inv (steps : List (Nat × (String → Nat))) :
    ∀ e : Executor, Inv e → Inv (drain e steps).2 := by
  induction steps with
  | nil => intro e h; exact h
  | cons s rest ih =>
    intro e h
    by_cases hm : hasMoreRows e
    · simp only [drain, hm, if_true]
      exact ih (nextBatch e s.1 s.2).2 (nextBatch_inv e s.1 s.2 h)
    · simp only [drain, hm, if_false]
      exact h

theorem pending_length_le (e : Executor) (h : Inv e) :
    e.pending.length ≤ e.tableRows.length := by
  have hlen := congrArg List.length h.1
  rw [List.length_append] at hlen
  have hf := List.length_filter_le (matchesSpec e.spec) e.tableRows
  omega

theorem recover_eq (e : Executor) (h : Inv e) (hs : StrictByKey e.tableRows) :
    recover e = e := by
  obtain ⟨h1, h2⟩ := h
  have hsplit : e.tableRows.filter (fun r => matchesSpec e.spec r && afterKey e.lastKey r)
      = (e.delivered ++ e.pending).filter (afterKey e.lastKey) := by
    rw [← h1, List.filter_filter]
    exact (List.filter_congr (fun r _ => by rw [Bool.and_comm])).symm
  have hsorted : (e.delivered ++ e.pending).Pairwise (fun a b => a.key < b.key) := by
    rw [← h1]
    exact hs.sublist (List.filter_sublist _)
  have hpend : e.tableRows.filter (fun r => matchesSpec e.spec r && afterKey e.lastKey r)
      = e.pending := by
    rw [hsplit, List.filter_append]
    rcases List.eq_nil_or_concat e.delivered with hd | ⟨L, b, hd⟩
    · rw [hd] at h2
      have hk : e.lastKey = none := h2
      rw [hd, hk]
      show List.filter _ [] ++ e.pending.filter (afterKey none) = e.pending
      rw [List.filter_nil, List.nil_append]
      exact List.filter_eq_self.mpr fun r _ => rfl
    · rw [List.concat_eq_append] at hd
      rw [hd] at h2
      rw [List.getLast?_concat] at h2
      have hk : e.lastKey = some b.key := h2
      rw [hd] at hsorted
      rw [List.append_assoc] at hsorted
      obtain ⟨hL, hrest, hcrossL⟩ := List.pairwise_append.mp hsorted
      obtain ⟨_, hpendP, hcrossB⟩ := List.pairwise_append.mp hrest
      have hdel : (L ++ [b]).filter (afterKey e.lastKey) = [] := by
        apply List.filter_eq_nil_iff.mpr
        intro x hx
        rw [hk]
        show ¬ (decide (b.key < x.key) = true)
        rcases List.mem_append.mp hx with hxL | hxb
        · have hxlt : x.key < b.key := hcrossL x hxL b (List.mem_append_left e.pending (List.mem_cons_self b []))
          simp only [decide_eq_true_eq]
          omega
        · have hxb2 : x = b := by simpa using hxb
          rw [hxb2]
          simp
      have hpen : e.pending.filter (afterKey e.lastKey) = e.pending := by
        apply List.filter_eq_self.mpr
        intro r hr
        rw [hk]
        show decide (b.key < r.key) = true
        have hbr : b.key < r.key := hcrossB b (List.mem_cons_self b []) r hr
        simp only [decide_eq_true_eq]
        exact hbr
      rw [hd, hdel, hpen, List.nil_append]
  show { e with pending := _ } = e
  rw [hpend]

/-! ## Metrics lemmas -/

theorem getMetric_addDelta (m : Metrics) (d : String → Nat) (k : String) :
    getMetric (addDelta m d) k = (getMetric m k).map fun v => v + d k := by
  induction m with
  | nil => rfl
  | cons a tl ih =>
    unfold addDelta getMetric
    simp only [List.map_cons]
    by_cases h : (a.1 == k) = true
    · have hk : a.1 = k := eq_of_beq h
      simp only [List.find?, h]
      simp [hk]
    · have h2 : (a.1 == k) = false := by simpa using h
      simp only [List.find?, h2]
      exact ih

theorem drain_metric_mono (steps : List (Nat × (String → Nat))) :
    ∀ (e : Executor) (k : String) (v : Nat),
      getMetric e.metrics k = some v →
      ∃ w, getMetric (drain e steps).2.metrics k = some w ∧ v ≤ w := by
  induction steps with
  | nil =>
    intro e k v h
    exact ⟨v, h, Nat.le_refl v⟩
  | cons s rest ih =>
    intro e k v h
    by_cases hm : hasMoreRows e
    · simp only [drain, hm, if_true]
      have h2 : getMetric (nextBatch e s.1 s.2).2.metrics k = some (v + s.2 k) := by
        show getMetric (addDelta e.metrics s.2) k = some (v + s.2 k)
        rw [getMetric_addDelta, h]
        rfl
      obtain ⟨w, hw, hvw⟩ := ih (nextBatch e s.1 s.2).2 k (v + s.2 k) h2
      exact ⟨w, hw, Nat.le_trans (Nat.le_add_right v (s.2 k)) hvw⟩
    · simp only [drain, hm, if_false]
      exact ⟨v, h, Nat.le_refl v⟩

/-! ## Replica-selection lemmas -/

theorem readAll_sublist (e : Executor) : List.Sublist (readAll e) e.pending := by
  unfold readAll
  cases e.remaining with
  | none => exact List.Sublist.refl _
  | some c => exact List.take_sublist c _

theorem chooseReplica_consistent (p : Partition) (hp : p.consistent)
    (sel : ReplicaSelection) : chooseReplica sel p = p.replicas.headD [] := by
  obtain ⟨hne, hsame, hl, hc⟩ := hp
  have h0 : 0 < p.replicas.length := List.length_pos.mpr hne
  unfold chooseReplica
  cases sel with
  | leaderOnly =>
    rw [List.getD_eq_getElem _ _ hl]
    exact hsame _ (List.getElem_mem hl)
  | closestReplica =>
    rw [List.getD_eq_getElem _ _ hc]
    exact hsame _ (List.getElem_mem hc)
  | firstReplica =>
    rw [List.getD_eq_getElem _ _ h0]
    exact hsame _ (List.getElem_mem h0)

/-! ## Codec roundtrip lemmas -/

theorem decInt_enc (i : Int) (r : List Nat) : decInt (encInt i ++ r) = some (i, r) := by
  by_cases h : i < 0
  · simp only [encInt, if_pos h, List.cons_append, List.nil_append, decInt]
    rw [if_neg one_ne_zero]
    have hi : -(i.natAbs : Int) = i := by omega
    rw [hi]
  · simp only [encInt, if_neg h, List.cons_append, List.nil_append, decInt]
    have hi : (i.natAbs : Int) = i := by omega
    simp [hi]

theorem decBool_enc (b : Bool) (r : List Nat) : decBool (encBool b ++ r) = some (b, r) := by
  cases b <;> rfl

theorem decOptInt_enc (o : Option Int) (r : List Nat) :
    decOptInt (encOptInt o ++ r) = some (o, r) := by
  cases o with
  | none => rfl
  | some i =>
    show (decInt (encInt i ++ r)).map (fun p => (some p.1, p.2)) = some (some i, r)
    rw [decInt_enc]
    rfl

theorem decOptNat_enc (o : Option Nat) (r : List Nat) :
    decOptNat (encOptNat o ++ r) = some (o, r) := by
  cases o with
  | none => cases r <;> rfl
  | some n => rfl

theorem decChars_enc (cs : List Char) (r : List Nat) :
    decChars cs.length (encChars cs ++ r) = some (cs, r) := by
  induction cs with
  | nil => rfl
  | cons c tl ih =>
    show decChars (tl.length + 1) ((c.toNat :: encChars tl) ++ r) = some (c :: tl, r)
    simp only [List.cons_append, decChars, List.append_eq, ih, Option.map_some']
    rw [Char.ofNat_toNat]

theorem decStr_enc (s : String) (r : List Nat) : decStr (encStr s ++ r) = some (s, r) := by
  obtain ⟨cs⟩ := s
  show decStr (cs.length :: (encChars cs ++ r)) = some (String.mk cs, r)
  simp only [decStr, decChars_enc, Option.map_some']

theorem decLit_enc (l : Lit) (r : List Nat) : decLit (encLit l ++ r) = some (l, r) := by
  cases l with
  | lInt i =>
    show (decInt (encInt i ++ r)).map (fun p => (Lit.lInt p.1, p.2)) = some (Lit.lInt i, r)
    rw [decInt_enc]
    rfl
  | lStr s =>
    show (decStr (encStr s ++ r)).map (fun p => (Lit.lStr p.1, p.2)) = some (Lit.lStr s, r)
    rw [decStr_enc]
    rfl

theorem decOp_enc (op : CmpOp) (r : List Nat) : decOp (encOp op ++ r) = some (op, r) := by
  cases op <;> rfl

theorem decLitsAux_enc (ls : List Lit) (r : List Nat) :
    decLitsAux ls.length ((ls.map encLit).flatten ++ r) = some (ls, r) := by
  induction ls with
  | nil => rfl
  | cons l tl ih =>
    show decLitsAux (tl.length + 1) ((encLit l ++ (tl.map encLit).flatten) ++ r)
      = some (l :: tl, r)
    rw [List.append_assoc]
    simp only [decLitsAux, decLit_enc, ih]

theorem decLits_enc (ls : List Lit) (r : List Nat) :
    decLits (encLits ls ++ r) = some (ls, r) := by
  show decLitsAux ls.length ((ls.map encLit).flatten ++ r) = some (ls, r)
  exact decLitsAux_enc ls r

theorem decPred_enc (p : Pred) (r : List Nat) : decPred (encPred p ++ r) = some (p, r) := by
  cases p with
  | comp op c l =>
    cases op <;>
      simp only [encPred, encOp, List.cons_append, List.nil_append, List.append_eq,
        decPred, decOp, decLit_enc, Option.map_some']
  | inList c ls =>
    show (decLits (encLits ls ++ r)).map (fun q => (Pred.inList c q.1, q.2))
      = some (Pred.inList c ls, r)
    rw [decLits_enc]
    rfl
  | isNull c => rfl
  | isNotNull c => rfl

theorem decPredsAux_enc (ps : List Pred) (r : List Nat) :
    decPredsAux ps.length ((ps.map encPred).flatten ++ r) = some (ps, r) := by
  induction ps with
  | nil => rfl
  | cons p tl ih =>
    show decPredsAux (tl.length + 1) ((encPred p ++ (tl.map encPred).flatten) ++ r)
      = some (p :: tl, r)
    rw [List.append_assoc]
    simp only [decPredsAux, decPred_enc, ih]

theorem decPreds_enc (ps : List Pred) (r : List Nat) :
    decPreds (encPreds ps ++ r) = some (ps, r) := by
  show decPredsAux ps.length ((ps.map encPred).flatten ++ r) = some (ps, r)
  exact decPredsAux_enc ps r

theorem decSel_enc (sel : ReplicaSelection) (r : List Nat) :
    decSel (encSel sel ++ r) = some (sel, r) := by
  cases sel <;> rfl

theorem deserialize_serialize (tok : ScanToken) : deserialize (serialize tok) = some tok := by
  obtain ⟨⟨preds, ⟨lo, hi⟩, lim, ft, sel, cb⟩⟩ := tok
  show deserialize (encPreds preds ++ encOptInt lo ++ encOptInt hi ++ encOptNat lim
      ++ encBool ft ++ encSel sel ++ encBool cb) = _
  rw [show encBool cb = encBool cb ++ [] from (List.append_nil _).symm]
  rw [List.append_assoc, List.append_assoc, List.append_assoc, List.append_assoc,
    List.append_assoc]
  simp only [deserialize, decPreds_enc, decOptInt_enc, decOptNat_enc, decBool_enc,
    decSel_enc, Option.some_bind]
  rfl

/-! ## Claim theorems -/

/-- C1: For every conjunctive predicate set and key-range bound, the rows a
scan returns equal exactly the table rows satisfying every predicate and lying
within the bound, and the result is independent of how the stream is split
into batches: draining batch-by-batch via `has_more_rows`/`next_batch` yields
the same rows as draining via `read_all_tuples`. -/
theorem scan_returns_exactly_matching_rows (t : Table) (sp : ScanSpec)
    (steps : List (Nat × (String → Nat)))
    (hlim : sp.limit = none)
    (hpos : ∀ s ∈ steps, 1 ≤ s.1)
    (hlen : t.allRows.length ≤ steps.length) :
    readAll (openScan t sp) = t.allRows.filter (matchesSpec sp) ∧
    (drain (openScan t sp) steps).1 = readAll (openScan t sp) ∧
    ∀ r : Row, r ∈ readAll (openScan t sp) ↔
      r ∈ t.allRows ∧ sp.preds.all (evalPred r) = true ∧ inBound sp.bound r.key = true := by
  have hra : readAll (openScan t sp) = t.allRows.filter (matchesSpec sp) := by
    unfold readAll openScan
    simp [hlim]
  refine ⟨hra, ?_, ?_⟩
  · apply drain_full steps (openScan t sp) hpos
    show (t.allRows.filter (matchesSpec sp)).length ≤ steps.length
    exact Nat.le_trans (List.length_filter_le _ _) hlen
  · intro r
    rw [hra, List.mem_filter]
    unfold matchesSpec
    rw [Bool.and_eq_true]

/-- C1 witness: on the demonstration table with predicates `key > 1` and
`string_val is not null` under bound `key < 4`, the scan returns exactly the
matching rows. -/
theorem scan_returns_exactly_matching_rows_witness :
    readAll (openScan demoTable demoSpec) = demoTable.allRows.filter (matchesSpec demoSpec) :=
  (scan_returns_exactly_matching_rows demoTable demoSpec demoSteps rfl
    (by decide) (by decide)).1

/-- C2: For a fault-tolerant scan interrupted by a partition failure, recovery
re-opens a sub-scan bounded below by the last delivered primary key exclusive,
and the concatenation of the rows delivered before the failure and after
recovery equals the uninterrupted scan result: each matching row is delivered
exactly once, with no duplicated and no missing primary keys. -/
theorem fault_tolerant_scan_exactly_once (t : Table) (sp : ScanSpec)
    (steps1 steps2 : List (Nat × (String → Nat)))
    (hord : t.ordered)
    (hft : sp.faultTolerant = true)
    (hpos : ∀ s ∈ steps2, 1 ≤ s.1)
    (hlen : t.allRows.length ≤ steps2.length) :
    onFailure (drain (openScan t sp) steps1).2
      = Except.ok (recover (drain (openScan t sp) steps1).2) ∧
    (drain (openScan t sp) steps1).1
        ++ (drain (recover (drain (openScan t sp) steps1).2) steps2).1
      = scanResult t sp := by
  have hinv : Inv (drain (openScan t sp) steps1).2 :=
    drain_inv steps1 (openScan t sp) (openScan_inv t sp)
  have hrows : (drain (openScan t sp) steps1).2.tableRows = t.allRows :=
    drain_tableRows_eq steps1 (openScan t sp)
  have hsorted : StrictByKey (drain (openScan t sp) steps1).2.tableRows := by
    rw [hrows]
    exact hord
  have hrec : recover (drain (openScan t sp) steps1).2 = (drain (openScan t sp) steps1).2 :=
    recover_eq _ hinv hsorted
  constructor
  · have hspec : (drain (openScan t sp) steps1).2.spec = sp :=
      drain_spec_eq steps1 (openScan t sp)
    unfold onFailure
    rw [hspec, hft]
    simp
  · rw [hrec]
    have hfull : (drain (drain (openScan t sp) steps1).2 steps2).1
        = readAll (drain (openScan t sp) steps1).2 := by
      apply drain_full steps2 _ hpos
      calc (drain (openScan t sp) steps1).2.pending.length
          ≤ (drain (openScan t sp) steps1).2.tableRows.length := pending_length_le _ hinv
        _ = t.allRows.length := by rw [hrows]
        _ ≤ steps2.length := hlen
    rw [hfull]
    exact drain_readAll steps1 (openScan t sp)

/-- C2 witness: on the demonstration table, a failure after one delivered batch
followed by recovery yields exactly the uninterrupted scan result. -/
theorem fault_tolerant_scan_exactly_once_witness :
    (drain (openScan demoTable demoSpec) [(1, fun _ => 0)]).1
        ++ (drain (recover (drain (openScan demoTable demoSpec) [(1, fun _ => 0)]).2)
              demoSteps).1
      = scanResult demoTable demoSpec :=
  (fault_tolerant_scan_exactly_once demoTable demoSpec [(1, fun _ => 0)] demoSteps
    (by unfold Table.ordered StrictByKey; decide) rfl (by decide) (by decide)).2

/-- C3: The delivered row stream is strictly ascending by primary key across
the entire scan — both for an uninterrupted scan and for the concatenated
stream across a RECOVERING transition — because rows are ascending within each
partition and partitions are visited in ascending key-range order. -/
theorem scan_stream_strictly_ascending (t : Table) (sp : ScanSpec)
    (steps1 steps2 : List (Nat × (String → Nat)))
    (hord : t.ordered)
    (hpos : ∀ s ∈ steps2, 1 ≤ s.1)
    (hlen : t.allRows.length ≤ steps2.length) :
    StrictByKey (scanResult t sp) ∧
    StrictByKey ((drain (openScan t sp) steps1).1
        ++ (drain (recover (drain (openScan t sp) steps1).2) steps2).1) := by
  have hordP : t.allRows.Pairwise (fun a b => a.key < b.key) := hord
  have hsub : List.Sublist (scanResult t sp) t.allRows := by
    have h1 : List.Sublist (readAll (openScan t sp)) (openScan t sp).pending :=
      readAll_sublist _
    have h2 : List.Sublist ((openScan t sp).pending) t.allRows := List.filter_sublist _
    exact h1.trans h2
  have hres : StrictByKey (scanResult t sp) := hordP.sublist hsub
  refine ⟨hres, ?_⟩
  have hinv : Inv (drain (openScan t sp) steps1).2 :=
    drain_inv steps1 (openScan t sp) (openScan_inv t sp)
  have hrows : (drain (openScan t sp) steps1).2.tableRows = t.allRows :=
    drain_tableRows_eq steps1 (openScan t sp)
  have hsorted : StrictByKey (drain (openScan t sp) steps1).2.tableRows := by
    rw [hrows]
    exact hord
  have hrec : recover (drain (openScan t sp) steps1).2 = (drain (openScan t sp) steps1).2 :=
    recover_eq _ hinv hsorted
  rw [hrec]
  have hfull : (drain (drain (openScan t sp) steps1).2 steps2).1
      = readAll (drain (openScan t sp) steps1).2 := by
    apply drain_full steps2 _ hpos
    calc (drain (openScan t sp) steps1).2.pending.length
        ≤ (drain (openScan t sp) steps1).2.tableRows.length := pending_length_le _ hinv
      _ = t.allRows.length := by rw [hrows]
      _ ≤ steps2.length := hlen
  rw [hfull, drain_readAll steps1 (openScan t sp)]
  exact hres

/-- C3 witness: the demonstration scan's delivered stream is strictly
ascending by primary key. -/
theorem scan_stream_strictly_ascending_witness :
    StrictByKey (scanResult demoTable demoSpec) :=
  (scan_stream_strictly_ascending demoTable demoSpec [(1, fun _ => 0)] demoSteps
    (by unfold Table.ordered StrictByKey; decide) (by decide) (by decide)).1

/-- C4: For a table of N rows, a scan with `setLimit(n)` delivers exactly
`min n N` rows in total, and once the cap is reached the executor issues no
further batch requests (`hasMoreRows` is false); reaching the limit is normal
termination, not an error. -/
theorem set_limit_returns_min (t : Table) (sp : ScanSpec) (n : Nat)
    (hpreds : sp.preds = [])
    (hbound : sp.bound = { lower := none, upper := none })
    (hlim : sp.limit = some n) :
    (scanResult t sp).length = min n t.allRows.length ∧
    (∀ e : Executor, e.remaining = some 0 → hasMoreRows e = false) := by
  constructor
  · have hall : t.allRows.filter (matchesSpec sp) = t.allRows :=
      List.filter_eq_self.mpr fun r _ => by
        unfold matchesSpec inBound
        rw [hpreds, hbound]
        rfl
    show (readAll (openScan t sp)).length = _
    unfold readAll openScan
    simp only [hlim]
    rw [hall, List.length_take]
  · intro e he
    unfold hasMoreRows
    rw [he]
    simp

/-- C4 witness: a limit of 2 on the 4-row demonstration table yields
`min 2 4 = 2` rows. -/
theorem set_limit_returns_min_witness :
    (scanResult demoTable demoLimitSpec).length = min 2 demoTable.allRows.length :=
  (set_limit_returns_min demoTable demoLimitSpec 2 rfl rfl rfl).1

/-- C5: Adding a predicate whose literal (or any member of an InList literal
set) is type-incompatible with the column's declared type fails synchronously
at configuration time with a type error — exactly when the predicate is
ill-typed — and any spec assembled through successful `addPredicate` calls
contains only well-typed predicates, so no type error is deferred to scan
execution. -/
theorem add_predicate_type_checked (schema : List ColType) (sp : ScanSpec) (p : Pred)
    (ps : List Pred) :
    ((∃ msg, addPredicate schema sp p = Except.error msg) ↔
      predWellTyped schema p = false) ∧
    (∀ sp2, addPredicate schema sp p = Except.ok sp2 → sp2.preds = sp.preds ++ [p]) ∧
    (∀ sp2, addPredicates schema sp ps = Except.ok sp2 →
      ∀ q ∈ ps, predWellTyped schema q = true) := by
  refine ⟨?_, ?_, ?_⟩
  · constructor
    · rintro ⟨msg, hmsg⟩
      by_cases h : predWellTyped schema p = true
      · unfold addPredicate at hmsg
        rw [if_pos h] at hmsg
        exact Except.noConfusion hmsg
      · simpa using h
    · intro h
      refine ⟨"TypeError", ?_⟩
      unfold addPredicate
      rw [if_neg (by simp [h])]
  · intro sp2 hok
    unfold addPredicate at hok
    by_cases h : predWellTyped schema p = true
    · rw [if_pos h] at hok
      injection hok with h2
      rw [← h2]
    · rw [if_neg h] at hok
      exact Except.noConfusion hok
  · induction ps generalizing sp with
    | nil =>
      intro sp2 _ q hq
      exact absurd hq (List.not_mem_nil q)
    | cons p0 tl ih =>
      intro sp2 hok q hq
      unfold addPredicates addPredicate at hok
      by_cases h : predWellTyped schema p0 = true
      · rw [if_pos h] at hok
        rcases List.mem_cons.mp hq with hq0 | hq1
        · rw [hq0]
          exact h
        · exact ih _ sp2 hok q hq1
      · rw [if_neg h] at hok
        exact Except.noConfusion hok

/-- C5 witness: an integer literal against the string column fails with a type
error, while a string literal against the string column is accepted as
well-typed through a successful `add_predicates` call. -/
theorem add_predicate_type_checked_witness :
    (∃ msg, addPredicate demoSchema demoSpec (Pred.comp CmpOp.ge 2 (Lit.lInt 1))
      = Except.error msg) ∧
    predWellTyped demoSchema (Pred.comp CmpOp.ge 2 (Lit.lStr "hello_20")) = true := by
  constructor
  · exact (add_predicate_type_checked demoSchema demoSpec
      (Pred.comp CmpOp.ge 2 (Lit.lInt 1)) []).1.mpr (by decide)
  · exact (add_predicate_type_checked demoSchema demoSpec
      (Pred.comp CmpOp.ge 2 (Lit.lStr "hello_20"))
      [Pred.comp CmpOp.ge 2 (Lit.lStr "hello_20")]).2.2
      { demoSpec with
          preds := demoSpec.preds ++ [Pred.comp CmpOp.ge 2 (Lit.lStr "hello_20")] }
      rfl _ (List.mem_cons_self _ _)

/-- C6: Predicate objects are immutable, reusable values: draining a scan
leaves its spec (and so its predicate set) unchanged, and opening a second
scan from the spec as it stands after the first run delivers exactly the rows
of the first run. -/
theorem predicates_reusable_across_opens (t : Table) (sp : ScanSpec)
    (steps : List (Nat × (String → Nat))) :
    (drain (openScan t sp) steps).2.spec = sp ∧
    (drain (openScan t ((drain (openScan t sp) steps).2.spec)) steps).1
      = (drain (openScan t sp) steps).1 := by
  have h : (drain (openScan t sp) steps).2.spec = sp := drain_spec_eq steps (openScan t sp)
  exact ⟨h, by rw [h]⟩

/-- C7: The replica-selection policy influences only which replica of each
partition is contacted: with consistent replicas, any two policies deliver
identical row sequences, both for a full drain and for `read_all_tuples`. -/
theorem selection_policy_invariance (parts : List Partition) (sp : ScanSpec)
    (steps : List (Nat × (String → Nat))) (sel1 sel2 : ReplicaSelection)
    (hcons : ∀ p ∈ parts, p.consistent) :
    scanResult (tableVia parts sel1) sp = scanResult (tableVia parts sel2) sp ∧
    (drain (openScan (tableVia parts sel1) sp) steps).1
      = (drain (openScan (tableVia parts sel2) sp) steps).1 := by
  have ht : tableVia parts sel1 = tableVia parts sel2 := by
    unfold tableVia
    congr 1
    apply List.map_congr_left
    intro p hp
    rw [chooseReplica_consistent p (hcons p hp) sel1,
      chooseReplica_consistent p (hcons p hp) sel2]
  rw [ht]
  exact ⟨rfl, rfl⟩

/-- C7 witness: on a three-way replicated partition, LEADER_ONLY and
CLOSEST_REPLICA scans deliver identical results. -/
theorem selection_policy_invariance_witness :
    scanResult (tableVia [demoPartition] ReplicaSelection.leaderOnly) demoSpec
      = scanResult (tableVia [demoPartition] ReplicaSelection.closestReplica) demoSpec := by
  refine (selection_policy_invariance [demoPartition] demoSpec demoSteps
    ReplicaSelection.leaderOnly ReplicaSelection.closestReplica ?_).1
  intro p hp
  rw [List.mem_singleton] at hp
  subst hp
  exact ⟨by decide, by decide, by decide, by decide⟩

/-- C8: A token built from a scan spec, serialized, deserialized, and executed
returns exactly the same rows as executing the original spec directly:
serialization round-trips the token, so the reconstituted token's execution
equals the original's. -/
theorem token_roundtrip_same_rows (sp : ScanSpec) (t : Table) :
    deserialize (serialize (buildToken sp)) = some (buildToken sp) ∧
    (deserialize (serialize (buildToken sp))).map (fun tok => scanResult t tok.spec)
      = some (scanResult t sp) := by
  have h := deserialize_serialize (buildToken sp)
  exact ⟨h, by rw [h]; rfl⟩

/-- C9: The resource-metrics mapping reports the cache-hit-bytes and
cache-miss-bytes counters at any intermediate point of the scan and after its
exhaustion, and each counter's value is monotonically non-decreasing over the
scan's lifetime. -/
theorem resource_metrics_present_and_monotone (t : Table) (sp : ScanSpec)
    (steps1 steps2 : List (Nat × (String → Nat))) :
    (∃ v1 v2,
      getMetric (drain (openScan t sp) steps1).2.metrics "cfile_cache_hit_bytes" = some v1 ∧
      getMetric (drain (drain (openScan t sp) steps1).2 steps2).2.metrics
        "cfile_cache_hit_bytes" = some v2 ∧
      v1 ≤ v2) ∧
    (∃ v1 v2,
      getMetric (drain (openScan t sp) steps1).2.metrics "cfile_cache_miss_bytes" = some v1 ∧
      getMetric (drain (drain (openScan t sp) steps1).2 steps2).2.metrics
        "cfile_cache_miss_bytes" = some v2 ∧
      v1 ≤ v2) := by
  have hhit0 : getMetric (openScan t sp).metrics "cfile_cache_hit_bytes" = some 0 := rfl
  have hmiss0 : getMetric (openScan t sp).metrics "cfile_cache_miss_bytes" = some 0 := rfl
  constructor
  · obtain ⟨v1, hv1, _⟩ := drain_metric_mono steps1 (openScan t sp) _ 0 hhit0
    obtain ⟨v2, hv2, h12⟩ := drain_metric_mono steps2 _ _ v1 hv1
    exact ⟨v1, v2, hv1, hv2, h12⟩
  · obtain ⟨v1, hv1, _⟩ := drain_metric_mono steps1 (openScan t sp) _ 0 hmiss0
    obtain ⟨v2, hv2, h12⟩ := drain_metric_mono steps2 _ _ v1 hv1
    exact ⟨v1, v2, hv1, hv2, h12⟩

theorem connect_many_many (hs : List String) (ps : List Nat) :
    connect (HostArg.many hs) (PortArg.many ps)
      = if hs.length = ps.length
        then Except.ok ⟨(hs.zip ps).map fun hp => formatAddr hp.1 hp.2⟩
        else Except.error "Host and port lists are not of equal length." := rfl

/-- C10: `connect(host, port)` raises `ValueError` exactly when host and port
are lists of different lengths, or when port is a list but host a single
value; in every other case it builds one `host:port` address per host
(broadcasting a single port over a host list) and constructs a `Client` from
that address list. -/
theorem connect_address_building (host : HostArg) (port : PortArg) :
    ((∃ msg, connect host port = Except.error msg) ↔
      ((∃ hs ps, host = HostArg.many hs ∧ port = PortArg.many ps ∧ hs.length ≠ ps.length) ∨
       (∃ h ps, host = HostArg.one h ∧ port = PortArg.many ps))) ∧
    (∀ hs ps, host = HostArg.many hs → port = PortArg.many ps → hs.length = ps.length →
      connect host port = Except.ok ⟨(hs.zip ps).map fun hp => formatAddr hp.1 hp.2⟩) ∧
    (∀ hs p, host = HostArg.many hs → port = PortArg.one p →
      connect host port = Except.ok ⟨hs.map fun h => formatAddr h p⟩) ∧
    (∀ h p, host = HostArg.one h → port = PortArg.one p →
      connect host port = Except.ok ⟨[formatAddr h p]⟩) := by
  cases host with
  | one h =>
    cases port with
    | one p =>
      refine ⟨?_, ?_, ?_, ?_⟩
      · simp [connect]
      · intro hs ps hh
        exact HostArg.noConfusion hh
      · intro hs p2 hh
        exact HostArg.noConfusion hh
      · intro h2 p2 hh hp
        injection hh with hh2
        injection hp with hp2
        rw [← hh2, ← hp2]
        rfl
    | many ps =>
      refine ⟨?_, ?_, ?_, ?_⟩
      · simp only [connect]
        constructor
        · intro _
          exact Or.inr ⟨h, ps, rfl, rfl⟩
        · intro _
          exact ⟨"List of ports provided but only a single host.", rfl⟩
      · intro hs ps2 hh
        exact HostArg.noConfusion hh
      · intro hs p2 hh
        exact HostArg.noConfusion hh
      · intro h2 p2 _ hp
        exact PortArg.noConfusion hp
  | many hs =>
    cases port with
    | one p =>
      refine ⟨?_, ?_, ?_, ?_⟩
      · simp [connect]
      · intro hs2 ps hh hp
        exact PortArg.noConfusion hp
      · intro hs2 p2 hh hp
        injection hh with hh2
        injection hp with hp2
        rw [← hh2, ← hp2]
        rfl
      · intro h2 p2 hh
        exact HostArg.noConfusion hh
    | many ps =>
      refine ⟨?_, ?_, ?_, ?_⟩
      · by_cases hlen : hs.length = ps.length
        · constructor
          · rintro ⟨msg, hmsg⟩
            rw [connect_many_many, if_pos hlen] at hmsg
            exact Except.noConfusion hmsg
          · rintro (⟨hs2, ps2, hh, hp, hne⟩ | ⟨h2, ps2, hh, hp⟩)
            · injection hh with hh2
              injection hp with hp2
              rw [← hh2, ← hp2] at hne
              exact absurd hlen hne
            · exact HostArg.noConfusion hh
        · constructor
          · intro _
            exact Or.inl ⟨hs, ps, rfl, rfl, hlen⟩
          · intro _
            refine ⟨"Host and port lists are not of equal length.", ?_⟩
            rw [connect_many_many, if_neg hlen]
      · intro hs2 ps2 hh hp hlen
        injection hh with hh2
        injection hp with hp2
        subst hh2
        subst hp2
        rw [connect_many_many, if_pos hlen]
      · intro hs2 p2 _ hp
        exact PortArg.noConfusion hp
      · intro h2 p2 hh
        exact HostArg.noConfusion hh

/-- C10 witness: a host list with a single port broadcasts the port, and a
single host with a port list raises `ValueError`. -/
theorem connect_address_building_witness :
    connect (HostArg.many ["m1", "m2"]) (PortArg.one 7051)
      = Except.ok ⟨["m1:7051", "m2:7051"]⟩ ∧
    (∃ msg, connect (HostArg.one "m1") (PortArg.many [7051, 7052])
      = Except.error msg) := by
  constructor
  · have h := (connect_address_building (HostArg.many ["m1", "m2"])
      (PortArg.one 7051)).2.2.1 ["m1", "m2"] 7051 rfl rfl
    rw [h]
    rfl
  · exact (connect_address_building (HostArg.one "m1")
      (PortArg.many [7051, 7052])).1.mpr (Or.inr ⟨"m1", [7051, 7052], rfl, rfl⟩)

end Kudu
